import Mathlib

/-
  Verification of the diff/patch engine of coc-git.

  The source is TypeScript; we shallowly embed the pure core:
  strings are lists of characters, a text is a list of lines,
  JavaScript exceptions and NaN-producing number parses are modelled
  as Option failure, and mutable loop state is passed explicitly.
-/

namespace CocGit

/-- A line of text, without newline characters. -/
abbrev Line := List Char

/-- Characters of a string literal. -/
def str (s : String) : List Char := s.data

/-- Enum ChangeType from src/types.ts (values add, changed, delete). -/
inductive ChangeType
  | add
  | change
  | delete
deriving DecidableEq

/-- A start and count pair, as in the removed and added fields of Diff. -/
structure Rng where
  start : Nat
  count : Nat
deriving DecidableEq

/-- Interface Diff from src/types.ts.  The source field end is named endLine
here because end is a reserved word in Lean. -/
structure Diff where
  changeType : ChangeType
  start : Nat
  endLine : Nat
  head : Line
  removed : Rng
  added : Rng
  lines : List Line
deriving DecidableEq

/-- Sign kinds: the source stores ChangeType or the string literals
topdelete and changedelete in SignInfo.changeType; we use one closed sum. -/
inductive SignKind
  | add
  | changed
  | delete
  | topdelete
  | changedelete
deriving DecidableEq

/-- Interface SignInfo from src/types.ts. -/
structure SignInfo where
  lnum : Nat
  changeType : SignKind
deriving DecidableEq

/-- A lnum and count pair, as in the remove and add fields of StageChunk. -/
structure LRng where
  lnum : Nat
  count : Nat
deriving DecidableEq

/-- Interface StageChunk from src/types.ts. -/
structure StageChunk where
  remove : LRng
  add : LRng
  lines : List Line
deriving DecidableEq

/-- Interface Conflict (with the optional common field). The source field
end is named endLine here. -/
structure Conflict where
  start : Nat
  common : Option Nat
  sep : Nat
  endLine : Nat
  current : Line
  incoming : Line
deriving DecidableEq

/-- Enum ConflictParseState. -/
inductive ConflictParseState
  | initial
  | matchedStart
  | matchedCommon
  | matchedSep
deriving DecidableEq

/-- The aggregate output of the sign projection in GitBuffer.diffDocument:
the three counters and the sign list. -/
structure DiffSummary where
  added : Nat
  changed : Nat
  removed : Nat
  signs : List SignInfo
deriving DecidableEq

/-! ### Character and number helpers -/

/-- Whitespace test used for the JS trim and the regex class \s
(restricted to the four common whitespace characters). -/
def isWs (c : Char) : Bool :=
  c == ' ' || c == '\t' || c == '\n' || c == '\r'

/-- The decimal digit character of a value below ten. -/
def digitChar (d : Nat) : Char :=
  match d with
  | 0 => '0'
  | 1 => '1'
  | 2 => '2'
  | 3 => '3'
  | 4 => '4'
  | 5 => '5'
  | 6 => '6'
  | 7 => '7'
  | 8 => '8'
  | _ => '9'

/-- Decimal digits of a natural number, fuel-indexed so that the
definition is structural and evaluates inside the kernel. -/
def natToDigitsAux : Nat → Nat → List Char
  | 0, _ => []
  | fuel + 1, n =>
    if n < 10 then [digitChar n]
    else natToDigitsAux fuel (n / 10) ++ [digitChar (n % 10)]

/-- Decimal digits of a natural number, most significant first. -/
def natToDigits (n : Nat) : List Char := natToDigitsAux (n + 1) n

/-- Decimal rendering of an integer, as the JS template string of a number. -/
def intToChars (i : Int) : List Char :=
  if i < 0 then '-' :: natToDigits i.natAbs else natToDigits i.toNat

/-- Value of a list of decimal digit characters. -/
def digitsVal (ds : List Char) : Nat :=
  ds.foldl (fun a c => a * 10 + (c.toNat - 48)) 0

/-- Model of JS parseInt(s, 10) on the strings arising in diff headers:
the leading run of digits is converted; an input without a leading digit
(which yields NaN in JS, poisoning the resulting hunk) is modelled as
failure. -/
def jsParseInt (l : List Char) : Option Nat :=
  let ds := l.takeWhile Char.isDigit
  if ds.isEmpty then none else some (digitsVal ds)

/-! ### Splitting helpers -/

/-- Split a character list at every character satisfying p, keeping empty
components, like the JS String.split with a single-character separator. -/
def splitAtPred (p : Char → Bool) : List Char → List (List Char)
  | [] => [[]]
  | c :: cs =>
    if p c then [] :: splitAtPred p cs
    else
      match splitAtPred p cs with
      | g :: gs => (c :: g) :: gs
      | [] => [[c]]

/-- Split a text into lines, as JS split on the newline character. -/
def splitNl (s : List Char) : List Line := splitAtPred (fun c => c == '\n') s

/-- JS split(/\s+/) restricted to trimmed input: fields are the maximal
runs of non-whitespace characters. -/
def wsFields (l : Line) : List (List Char) :=
  (splitAtPred isWs l).filter (fun g => !g.isEmpty)

/-- JS split on a comma. -/
def splitComma (l : List Char) : List (List Char) :=
  splitAtPred (fun c => c == ',') l

/-- Drop leading whitespace, as the left half of JS trim. -/
def trimL (l : Line) : Line := l.dropWhile isWs

/-- Drop trailing whitespace, as the right half of JS trim. -/
def trimR (l : Line) : Line := (l.reverse.dropWhile isWs).reverse

/-- JS String.trim. -/
def trimBoth (l : Line) : Line := trimR (trimL l)

/-- The characters after the first occurrence of the token at-at,
or failure when the token does not occur: together with upToToken this
models the JS expression line.split(at-at, 2)[1]. -/
def afterToken : List Char → Option (List Char)
  | [] => none
  | c :: rest =>
    if c = '@' ∧ rest.head? = some '@' then some rest.tail
    else afterToken rest

/-- The characters before the next occurrence of the token at-at
(the whole list when the token does not occur). -/
def upToToken : List Char → List Char
  | [] => []
  | c :: rest =>
    if c = '@' ∧ rest.head? = some '@' then []
    else c :: upToToken rest

/-! ### The diff parser (parseDiff in src/src/model/repo.ts) -/

/-- The count of a comma group: JS writes parseInt of (group or 1), so a
missing or empty group defaults to 1. -/
def countOf : Option (List Char) → Option Nat
  | none => some 1
  | some [] => some 1
  | some g => jsParseInt g

/-- Read the removed and added ranges out of the split minus and plus
groups (repo.ts lines 239 to 246): the starts are parseInt of the first
comma component, the counts default to 1 when the second component is
missing or empty.  A JS TypeError (missing group) or a NaN result is
modelled as none. -/
def mkRngPair (pres nows : List (List Char)) : Option (Rng × Rng) :=
  match pres, nows with
  | p0 :: _, n0 :: _ =>
    match jsParseInt p0, countOf (pres.get? 1),
          jsParseInt n0, countOf (nows.get? 1) with
    | some rs, some rc, some ns, some nc =>
      some (⟨rs, rc⟩, ⟨ns, nc⟩)
    | _, _, _, _ => none
  | _, _ => none

/-- Parse the diff key of a header line (repo.ts lines 232 to 246):
take the text between the two at-at tokens, trim it, split it on
whitespace into the minus and plus groups, drop the sign of each group and
split it on commas, then read the numbers. -/
def parseHeaderOfLine (line : Line) : Option (Rng × Rng) :=
  match afterToken line with
  | none => none
  | some rest =>
    let diffKey := trimBoth (upToToken rest)
    let groups := (wsFields diffKey).map (fun s => splitComma (s.drop 1))
    match groups with
    | pres :: nows :: _ => mkRngPair pres nows
    | _ => none

/-- Build the Diff object for a parsed header (repo.ts lines 248 to 284):
delete when the added count is zero, add when the removed count is zero,
change otherwise.  The natural subtractions only occur under a guard that
keeps the relevant count positive, so they agree with the JS arithmetic. -/
def mkDiff (line : Line) (removed added : Rng) : Diff :=
  if added.count = 0 then
    ⟨ChangeType.delete, added.start, added.start, line, removed, added, []⟩
  else if removed.count = 0 then
    ⟨ChangeType.add, added.start, added.start + added.count - 1, line, removed, added, []⟩
  else
    ⟨ChangeType.change, added.start,
      added.start + Nat.min added.count removed.count - 1, line, removed, added, []⟩

/-- JS line.startsWith on the at-at token. -/
def isHeaderLine (l : Line) : Bool := (str "@@").isPrefixOf l

/-- The scan loop of parseDiff: a header line opens a new hunk, any other
line is appended to the open hunk when one exists and is otherwise
dropped.  The open hunk is carried separately and flushed when the next
header arrives or at the end of input. -/
def parseDiffLoop : List Line → Option Diff → Option (List Diff)
  | [], curr =>
    some (match curr with | none => [] | some d => [d])
  | l :: ls, curr =>
    if isHeaderLine l then
      match parseHeaderOfLine l with
      | none => none
      | some (removed, added) =>
        match curr with
        | none => parseDiffLoop ls (some (mkDiff l removed added))
        | some c => (parseDiffLoop ls (some (mkDiff l removed added))).map (fun ds => c :: ds)
    else
      match curr with
      | none => parseDiffLoop ls none
      | some c => parseDiffLoop ls (some { c with lines := c.lines ++ [l] })

/-- parseDiff (repo.ts line 217): split the diff text into lines, drop the
first four lines and the final empty line, then scan. -/
def parseDiff (diffStr : List Char) : Option (List Diff) :=
  parseDiffLoop (((splitNl diffStr).drop 4).dropLast) none

/-! ### Rendering of valid hunk headers (for the header round-trip claim) -/

/-- Optional comma-count group of a rendered header. -/
def commaCount : Option Nat → List Char
  | none => []
  | some b => ',' :: natToDigits b

/-- A valid hunk header line: at-at, the minus group, the plus group,
at-at, then arbitrary trailing context text. -/
def renderHeader (a : Nat) (b : Option Nat) (c : Nat) (d : Option Nat) (t : List Char) : Line :=
  str "@@ -" ++ natToDigits a ++ commaCount b ++ str " +" ++
    natToDigits c ++ commaCount d ++ str " @@" ++ t

/-! ### Sign projection (GitBuffer.diffDocument, repo.ts lines 1401 to 1437) -/

/-- Injection of a ChangeType into the sign kind sum. -/
def signOfChange : ChangeType → SignKind
  | ChangeType.add => SignKind.add
  | ChangeType.change => SignKind.changed
  | ChangeType.delete => SignKind.delete

/-- The inner sign loop of diffDocument: one sign per line from start to
endLine, with the topdelete and changedelete replacements. -/
def hunkLineSigns (d : Diff) : List SignInfo :=
  (List.range' d.start (d.endLine + 1 - d.start)).map fun i =>
    let topdelete := d.changeType = ChangeType.delete ∧ i = 0
    let changedelete :=
      d.changeType = ChangeType.change ∧ d.removed.count > d.added.count ∧ i = d.endLine
    { changeType :=
        if topdelete then SignKind.topdelete
        else if changedelete then SignKind.changedelete
        else signOfChange d.changeType,
      lnum := if topdelete then 1 else i }

/-- The trailing add signs of a change hunk whose added count exceeds its
removed count (repo.ts lines 1426 to 1436). -/
def hunkTailSigns (d : Diff) : List SignInfo :=
  if d.changeType = ChangeType.change ∧ d.added.count > d.removed.count then
    (List.range (d.added.count - d.removed.count)).map fun i =>
      { changeType := SignKind.add, lnum := d.endLine + 1 + i }
  else []

/-- One iteration of the diffDocument loop: update the three counters by
the changeType of the hunk, then append its signs. -/
def diffStep (acc : DiffSummary) (d : Diff) : DiffSummary :=
  let acc1 :=
    match d.changeType with
    | ChangeType.add => { acc with added := acc.added + d.added.count }
    | ChangeType.delete => { acc with removed := acc.removed + d.removed.count }
    | ChangeType.change =>
      let mn := Nat.min d.added.count d.removed.count
      { acc with
        changed := acc.changed + mn,
        added := acc.added + (d.added.count - mn),
        removed := acc.removed + (d.removed.count - mn) }
  { acc1 with signs := acc1.signs ++ hunkLineSigns d ++ hunkTailSigns d }

/-- The pure projection core of GitBuffer.diffDocument. -/
def diffDocument (diffs : List Diff) : DiffSummary :=
  diffs.foldl diffStep ⟨0, 0, 0, []⟩

/-- Added counter contribution of one hunk as the claim states it. -/
def claimAddedOf (d : Diff) : Nat :=
  match d.changeType with
  | ChangeType.add => d.added.count
  | ChangeType.delete => 0
  | ChangeType.change =>
    if d.added.count > d.removed.count then d.added.count - d.removed.count else 0

/-- Changed counter contribution of one hunk as the claim states it. -/
def claimChangedOf (d : Diff) : Nat :=
  match d.changeType with
  | ChangeType.change => Nat.min d.added.count d.removed.count
  | _ => 0

/-- Removed counter contribution of one hunk as the claim states it. -/
def claimRemovedOf (d : Diff) : Nat :=
  match d.changeType with
  | ChangeType.add => 0
  | ChangeType.delete => d.removed.count
  | ChangeType.change =>
    if d.removed.count > d.added.count then d.removed.count - d.added.count else 0

/-- Per-hunk signs as the claim states them: one sign per line in the
start to endLine range, a delete at line zero remapped to line one as
topdelete, the last line of a shrinking change as changedelete, and extra
add signs after a growing change. -/
def claimSignsOf (d : Diff) : List SignInfo :=
  ((List.range' d.start (d.endLine + 1 - d.start)).map fun i =>
    if d.changeType = ChangeType.delete ∧ i = 0 then ⟨1, SignKind.topdelete⟩
    else if d.changeType = ChangeType.change ∧ d.removed.count > d.added.count ∧ i = d.endLine then
      ⟨i, SignKind.changedelete⟩
    else ⟨i, signOfChange d.changeType⟩)
  ++ (if d.changeType = ChangeType.change ∧ d.added.count > d.removed.count then
        (List.range (d.added.count - d.removed.count)).map fun j =>
          ⟨d.endLine + 1 + j, SignKind.add⟩
      else [])

/-! ### Chunk locator (GitBuffer.getChunk, repo.ts lines 1143 to 1157) -/

/-- The find predicate of getChunk: the special case for a deletion
anchored above line one, else the range test against the end corrected by
the size delta of a growing change hunk. -/
def getChunkPred (line : Nat) (ch : Diff) : Bool :=
  if line = 1 ∧ ch.start = 0 ∧ ch.endLine = 0 then true
  else
    let e :=
      if ch.changeType = ChangeType.change ∧ ch.added.count > ch.removed.count then
        ch.endLine + ch.added.count - ch.removed.count
      else ch.endLine
    decide (ch.start ≤ line ∧ e ≥ line)

/-- GitBuffer.getChunk. -/
def getChunk (diffs : List Diff) (line : Nat) : Option Diff :=
  if diffs.isEmpty then none
  else diffs.find? (getChunkPred line)

/-- The effective end of a hunk as the claim states it. -/
def claimEffEnd (d : Diff) : Nat :=
  if d.changeType = ChangeType.change ∧ d.added.count > d.removed.count then
    d.endLine + (d.added.count - d.removed.count)
  else d.endLine

/-- The matching condition of the claim, one disjunction. -/
def claimMatches (line : Nat) (d : Diff) : Bool :=
  decide ((line = 1 ∧ d.start = 0 ∧ d.endLine = 0) ∨
    (d.start ≤ line ∧ line ≤ claimEffEnd d))

/-! ### Conflict parser (GitBuffer.parseConflicts, repo.ts lines 1818 to 1889) -/

/-- The revision character class of revPattern (repo.ts line 1088). -/
def isRevChar (c : Char) : Bool :=
  c.isAlphanum || c == '_' || c == '.' || c == ':' || c == '/' || c == '-'

/-- Drop an expected literal, else fail. -/
def dropLit (pat l : List Char) : Option (List Char) :=
  if pat.isPrefixOf l then some (l.drop pat.length) else none

/-- Drop exactly one whitespace character, as a single regex \s. -/
def dropWs1 : List Char → Option (List Char)
  | [] => none
  | c :: cs => if isWs c then some cs else none

/-- The optional trailing group of the start and end marker patterns:
empty, or a space and at least one character.  A leading colon cannot
reach this point because the colon is a revision character consumed
greedily before it. -/
def markerTailOk (rem : List Char) : Bool :=
  rem.isEmpty || (rem.head? == some ' ' && decide (2 ≤ rem.length))

/-- Match a conflict marker line: seven copies of the marker character, a
space, the revision capture, then the optional trailing text.  The
revision run is taken greedily, which agrees with the regex on every line
whose remainder starts with a non-revision character. -/
def matchMarker (mark : Char) (l : Line) : Option (List Char) :=
  match dropLit [mark, mark, mark, mark, mark, mark, mark, ' '] l with
  | none => none
  | some rest =>
    let rev := rest.takeWhile isRevChar
    let rem := rest.dropWhile isRevChar
    if !rev.isEmpty && markerTailOk rem then some rev else none

/-- The separator pattern: exactly seven equals signs. -/
def matchSep (l : Line) : Bool := l == str "======="

/-- The common-ancestors pattern, a prefix match. -/
def matchCommon (l : Line) : Bool :=
  (((((((some l >>= dropLit (str "|||||||")) >>= dropWs1) >>= dropLit (str "merged"))
    >>= dropWs1) >>= dropLit (str "common")) >>= dropWs1) >>= dropLit (str "ancestors")).isSome

/-- The fresh conflict of a matched start marker (repo.ts line 1824). -/
def mkStartConflict (index : Nat) (current : Line) : Conflict :=
  ⟨index + 1, none, 0, 0, current, []⟩

/-- The forEach body of parseConflicts as a fold with an explicit line
index, the mutable state and the emitted conflicts. -/
def parseConflictsLoop :
    List Line → Nat → ConflictParseState → Option Conflict → List Conflict → List Conflict
  | [], _, _, _, acc => acc
  | l :: ls, index, state, conflict, acc =>
    match state with
    | ConflictParseState.initial =>
      match matchMarker '<' l with
      | some rev =>
        parseConflictsLoop ls (index + 1) ConflictParseState.matchedStart
          (some (mkStartConflict index rev)) acc
      | none => parseConflictsLoop ls (index + 1) ConflictParseState.initial conflict acc
    | ConflictParseState.matchedStart
    | ConflictParseState.matchedCommon =>
      if matchSep l then
        parseConflictsLoop ls (index + 1) ConflictParseState.matchedSep
          (conflict.map (fun c => { c with sep := index + 1 })) acc
      else
        match matchMarker '<' l with
        | some rev =>
          parseConflictsLoop ls (index + 1) ConflictParseState.matchedStart
            (some (mkStartConflict index rev)) acc
        | none =>
          if (matchMarker '>' l).isSome then
            parseConflictsLoop ls (index + 1) ConflictParseState.initial none acc
          else if matchCommon l then
            parseConflictsLoop ls (index + 1) ConflictParseState.matchedCommon
              (conflict.map (fun c => { c with common := some (index + 1) })) acc
          else parseConflictsLoop ls (index + 1) state conflict acc
    | ConflictParseState.matchedSep =>
      match matchMarker '>' l with
      | some rev =>
        parseConflictsLoop ls (index + 1) ConflictParseState.initial none
          (acc ++ [(conflict.map
            (fun c => { c with endLine := index + 1, incoming := rev })).getD
              ⟨0, none, 0, 0, [], []⟩])
      | none =>
        match matchMarker '<' l with
        | some rev =>
          parseConflictsLoop ls (index + 1) ConflictParseState.matchedStart
            (some (mkStartConflict index rev)) acc
        | none =>
          if matchSep l then
            parseConflictsLoop ls (index + 1) ConflictParseState.initial none acc
          else parseConflictsLoop ls (index + 1) state conflict acc

/-- The pure scanning core of GitBuffer.parseConflicts over buffer lines. -/
def parseConflicts (lines : List Line) : List Conflict :=
  parseConflictsLoop lines 0 ConflictParseState.initial none []

/-- The seven-line buffer of the conflict determinism property. -/
def conflictBuffer : List Line :=
  [str "local text", str "<<<<<<< HEAD", str "mine", str "=======",
   str "theirs", str ">>>>>>> branch", str "tail"]

/-! ### Patch synthesis (GitBuffer.chunkStage and createUnstagePatch) -/

/-- Join lines with newline characters, as JS Array.join. -/
def joinLines : List Line → List Char
  | [] => []
  | [l] => l
  | l :: ls => l ++ '\n' :: joinLines ls

/-- The header recomputed by chunkStage (repo.ts lines 1186 to 1193). -/
def chunkStageHead (d : Diff) : Line :=
  match d.changeType with
  | ChangeType.add =>
    str "@@ -" ++ natToDigits (d.removed.start + 1) ++ str ",0 +" ++
      natToDigits (d.removed.start + 1) ++ str "," ++ natToDigits d.added.count ++ str " @@"
  | ChangeType.delete =>
    str "@@ -" ++ natToDigits d.removed.start ++ str "," ++ natToDigits d.removed.count ++
      str " +" ++ natToDigits d.removed.start ++ str ",0 @@"
  | ChangeType.change =>
    str "@@ -" ++ natToDigits d.removed.start ++ str "," ++ natToDigits d.removed.count ++
      str " +" ++ natToDigits d.removed.start ++ str "," ++ natToDigits d.added.count ++ str " @@"

/-- The lines of the patch built by chunkStage (repo.ts lines 1194 to
1202): the envelope, the recomputed header, the hunk body verbatim, and a
final empty line. -/
def chunkStageLines (relpath : Line) (d : Diff) : List Line :=
  [str "diff --git a/" ++ relpath ++ str " b/" ++ relpath,
   str "index 000000..000000 100644",
   str "--- a/" ++ relpath,
   str "+++ b/" ++ relpath,
   chunkStageHead d]
  ++ d.lines ++ [[]]

/-- The patch text handed to git apply by chunkStage. -/
def chunkStagePatch (relpath : Line) (d : Diff) : List Char :=
  joinLines (chunkStageLines relpath d)

/-- reverseLine from src/src/util.ts. -/
def reverseLine : Line → Line
  | '-' :: rest => '+' :: rest
  | '+' :: rest => '-' :: rest
  | l => l

/-- The line flip as the claim states it: only the leading plus or minus
character changes. -/
def claimFlip (l : Line) : Line :=
  if l.head? = some '-' then '+' :: l.tail
  else if l.head? = some '+' then '-' :: l.tail
  else l

/-- createUnstagePatch from src/src/util.ts: empty output for an empty
chunk, else the envelope with the recomputed reversing header and the
sign-flipped body. -/
def createUnstagePatch (relpath : Line) (chunk : StageChunk) : List Char :=
  if chunk.remove.count = 0 ∧ chunk.add.count = 0 then []
  else
    let head :=
      str "@@ -" ++ natToDigits chunk.add.lnum ++ str "," ++ natToDigits chunk.add.count ++
        str " +" ++ intToChars ((chunk.add.lnum : Int) + 1 - (chunk.add.count : Int)) ++
        str "," ++ natToDigits chunk.remove.count ++ str " @@"
    joinLines
      ([str "diff --git a/" ++ relpath ++ str " b/" ++ relpath,
        str "index 000000..000000 100644",
        str "--- a/" ++ relpath,
        str "+++ b/" ++ relpath,
        head]
       ++ chunk.lines.map reverseLine ++ [[]])

/-! ### Staged chunk parsing (Repo.getStagedChunks, repo.ts lines 23 to 63) -/

/-- The JS regex test for a line starting with plus or minus. -/
def jsTestPlusMinus (l : Line) : Bool :=
  match l with
  | c :: _ => c == '+' || c == '-'
  | [] => false

/-- Drop at least one whitespace character, then any further run, as the
regex \s+ followed by a non-whitespace pattern. -/
def dropWs1Plus : List Char → Option (List Char)
  | [] => none
  | c :: cs => if isWs c then some (cs.dropWhile isWs) else none

/-- Match the staged hunk header regex of getStagedChunks (repo.ts line
39), returning the remove and add groups of lines 42 and 43: an empty
comma group defaults the count to 1. -/
def matchStagedHeader (l : Line) : Option (LRng × LRng) :=
  match dropLit (str "@@") l with
  | none => none
  | some r0 =>
  match dropWs1Plus r0 with
  | none => none
  | some r1 =>
  match dropLit (str "-") r1 with
  | none => none
  | some r2 =>
    let g1 := r2.takeWhile Char.isDigit
    if g1.isEmpty then none
    else
      let r3 := r2.dropWhile Char.isDigit
      let r4 := if (str ",").isPrefixOf r3 then r3.drop 1 else r3
      let g2 := r4.takeWhile Char.isDigit
      let r5 := r4.dropWhile Char.isDigit
      match dropWs1Plus r5 with
      | none => none
      | some r6 =>
      match dropLit (str "+") r6 with
      | none => none
      | some r7 =>
        let g3 := r7.takeWhile Char.isDigit
        if g3.isEmpty then none
        else
          let r8 := r7.dropWhile Char.isDigit
          let r9 := if (str ",").isPrefixOf r8 then r8.drop 1 else r8
          let g4 := r9.takeWhile Char.isDigit
          let r10 := r9.dropWhile Char.isDigit
          match dropWs1Plus r10 with
          | none => none
          | some r11 =>
            if (str "@@").isPrefixOf r11 then
              some
                (⟨digitsVal g1, if g2.isEmpty then 1 else digitsVal g2⟩,
                 ⟨digitsVal g3, if g4.isEmpty then 1 else digitsVal g4⟩)
            else none

/-- The capture of the greedy dot group before the last whitespace, b,
slash triple: models the capture of the diff git file regex. -/
def captureToLastB : List Char → Option (List Char)
  | c1 :: c2 :: c3 :: rest =>
    match captureToLastB (c2 :: c3 :: rest) with
    | some cap => some (c1 :: cap)
    | none => if isWs c1 && c2 == 'b' && c3 == '/' then some [] else none
  | _ => none

/-- Match the diff git line regex of getStagedChunks (repo.ts line 52),
anchored at the line start, returning the captured path. -/
def matchDiffGit (l : Line) : Option Line :=
  ((((((some l >>= dropLit (str "diff")) >>= dropWs1) >>= dropLit (str "--git"))
    >>= dropWs1) >>= dropLit (str "a/"))).bind captureToLastB

/-- Truthiness of the fsPath variable: set and non-empty. -/
def fsTruthy : Option Line → Bool
  | none => false
  | some [] => false
  | some (_ :: _) => true

/-- Append a chunk to the entry of a path, creating the entry at the end
when absent, as the JS object update res[fsPath].push. -/
def pushChunkAt :
    List (Line × List StageChunk) → Line → StageChunk → List (Line × List StageChunk)
  | [], p, ch => [(p, [ch])]
  | (q, cs) :: rest, p, ch =>
    if q == p then (q, cs ++ [ch]) :: rest else (q, cs) :: pushChunkAt rest p ch

/-- Append a line to the last chunk of a list of chunks, modelling the
push through the curr alias. -/
def appendLast (l : Line) : List StageChunk → List StageChunk
  | [] => []
  | [c] => [{ c with lines := c.lines ++ [l] }]
  | c :: rest => c :: appendLast l rest

/-- Append a line to the last chunk of the entry of a path. -/
def appendLineAt :
    List (Line × List StageChunk) → Line → Line → List (Line × List StageChunk)
  | [], _, _ => []
  | (q, cs) :: rest, p, l =>
    if q == p then (q, appendLast l cs) :: rest else (q, cs) :: appendLineAt rest p l

/-- The while loop of getStagedChunks, fuel-indexed: the fuel dominates
the number of remaining lines, so the run always completes.  The open
chunk is the last chunk of the current path entry; currOpen records
whether the curr variable is set. -/
def getStagedLoop :
    Nat → List Line → Option Line → Bool → List (Line × List StageChunk) →
      List (Line × List StageChunk)
  | 0, _, _, _, res => res
  | _ + 1, [], _, _, res => res
  | fuel + 1, l :: ls, fsPath, currOpen, res =>
    if fsTruthy fsPath && isHeaderLine l then
      match matchStagedHeader l with
      | some (rm, ad) =>
        getStagedLoop fuel ls fsPath true (pushChunkAt res (fsPath.getD []) ⟨rm, ad, []⟩)
      | none => getStagedLoop fuel ls fsPath false res
    else if currOpen && jsTestPlusMinus l then
      getStagedLoop fuel ls fsPath currOpen (appendLineAt res (fsPath.getD []) l)
    else if (str "diff --git").isPrefixOf l then
      match matchDiffGit l with
      | some p => getStagedLoop fuel (ls.drop 3) (some p) false res
      | none => getStagedLoop fuel ls fsPath currOpen res
    else getStagedLoop fuel ls fsPath currOpen res

/-- The parsing core of Repo.getStagedChunks over the stdout lines. -/
def getStagedChunks (lines : List Line) : List (Line × List StageChunk) :=
  getStagedLoop lines.length lines none false []

/-! ### Concrete example inputs -/

/-- A diff text with a stray body line before the first header. -/
def cexC1Str : List Char :=
  str "diff --git a/f b/f\nindex 1..2 100644\n--- a/f\n+++ b/f\njunk\n@@ -1,0 +2,2 @@\n+x\n+y\n"

/-- The single hunk parseDiff extracts from cexC1Str. -/
def cexC1Diff : Diff :=
  ⟨ChangeType.add, 2, 3, str "@@ -1,0 +2,2 @@", ⟨1, 0⟩, ⟨2, 2⟩, [str "+x", str "+y"]⟩

/-- A well-formed single-hunk diff text. -/
def exChangeStr : List Char :=
  str "diff --git a/f b/f\nindex 1..2 100644\n--- a/f\n+++ b/f\n@@ -3,1 +3,1 @@\n-old\n+new\n"

/-- The hunk parseDiff extracts from exChangeStr. -/
def exChangeDiff : Diff :=
  ⟨ChangeType.change, 3, 3, str "@@ -3,1 +3,1 @@", ⟨3, 1⟩, ⟨3, 1⟩, [str "-old", str "+new"]⟩

/-- A change hunk whose original header differs from the recomputed
staging header, because earlier hunks shifted the buffer line numbers. -/
def cexC8Diff : Diff :=
  ⟨ChangeType.change, 5, 5, str "@@ -3,1 +5,1 @@", ⟨3, 1⟩, ⟨5, 1⟩, [str "-old", str "+new"]⟩

/-- A staged chunk whose add and remove positions differ. -/
def cexC9Chunk : StageChunk :=
  ⟨⟨3, 1⟩, ⟨5, 2⟩, [str "-x", str "+y", str "+z"]⟩

/-- Stdout lines of a staged diff with one file and one hunk. -/
def exStagedLines : List Line :=
  [str "diff --git a/a.txt b/a.txt", str "index 111..222 100644",
   str "--- a/a.txt", str "+++ b/a.txt", str "@@ -1,1 +1,1 @@ ctx",
   str "-old", str "+new", str ""]

/-- The staged chunk parsed from exStagedLines. -/
def exStagedChunk : StageChunk :=
  ⟨⟨1, 1⟩, ⟨1, 1⟩, [str "-old", str "+new"]⟩

/-- The shape invariant of every hunk built by mkDiff: the counts decide
the changeType, and start and endLine are derived as in the source. -/
def coreOk (d : Diff) : Prop :=
  (d.added.count = 0 ∧ d.changeType = ChangeType.delete ∧
    d.start = d.added.start ∧ d.endLine = d.added.start) ∨
  (d.added.count ≠ 0 ∧ d.removed.count = 0 ∧ d.changeType = ChangeType.add ∧
    d.start = d.added.start ∧ d.endLine = d.added.start + d.added.count - 1) ∨
  (d.added.count ≠ 0 ∧ d.removed.count ≠ 0 ∧ d.changeType = ChangeType.change ∧
    d.start = d.added.start ∧
    d.endLine = d.added.start + Nat.min d.added.count d.removed.count - 1)

/-! ## Theorems -/

/-! ### Generic helper lemmas -/

theorem coreOk_mkDiff (l : Line) (r a : Rng) : coreOk (mkDiff l r a) := by
  unfold mkDiff coreOk
  split_ifs with h1 h2
  · exact Or.inl ⟨h1, rfl, rfl, rfl⟩
  · exact Or.inr (Or.inl ⟨h1, h2, rfl, rfl, rfl⟩)
  · exact Or.inr (Or.inr ⟨h1, h2, rfl, rfl, rfl⟩)

theorem coreOk_lines_update (c : Diff) (x : List Line) :
    coreOk { c with lines := x } ↔ coreOk c := Iff.rfl

theorem parseDiffLoop_coreOk :
    ∀ (ls : List Line) (curr : Option Diff) (ds : List Diff),
      (∀ c, curr = some c → coreOk c) →
      parseDiffLoop ls curr = some ds → ∀ d ∈ ds, coreOk d := by
  intro ls
  induction ls with
  | nil =>
    intro curr ds hcurr h d hd
    cases curr with
    | none =>
      simp only [parseDiffLoop, Option.some.injEq] at h
      subst h
      simp at hd
    | some c =>
      simp only [parseDiffLoop, Option.some.injEq] at h
      subst h
      simp at hd
      rw [hd]
      exact hcurr c rfl
  | cons l ls ih =>
    intro curr ds hcurr h d hd
    simp only [parseDiffLoop] at h
    by_cases hl : isHeaderLine l
    · rw [if_pos hl] at h
      cases hp : parseHeaderOfLine l with
      | none => rw [hp] at h; cases h
      | some ra =>
        rw [hp] at h
        obtain ⟨removed, added⟩ := ra
        cases curr with
        | none =>
          refine ih _ ds ?_ h d hd
          intro c hc
          cases Option.some.inj hc
          exact coreOk_mkDiff l removed added
        | some c =>
          rcases Option.map_eq_some'.mp h with ⟨ds', hds', rfl⟩
          rcases List.mem_cons.mp hd with rfl | hmem
          · exact hcurr d rfl
          · refine ih _ ds' ?_ hds' d hmem
            intro c' hc'
            cases Option.some.inj hc'
            exact coreOk_mkDiff l removed added
    · rw [if_neg hl] at h
      cases curr with
      | none =>
        refine ih _ ds ?_ h d hd
        intro c hc
        cases hc
      | some c =>
        refine ih _ ds ?_ h d hd
        intro c' hc'
        cases Option.some.inj hc'
        exact (coreOk_lines_update c _).mpr (hcurr c rfl)

theorem jsTestPlusMinus_head (l : Line) :
    jsTestPlusMinus l = true ↔ (l.head? = some '+' ∨ l.head? = some '-') := by
  cases l with
  | nil => simp [jsTestPlusMinus]
  | cons c cs => simp [jsTestPlusMinus]

theorem reverseLine_eq_claimFlip (l : Line) : reverseLine l = claimFlip l := by
  unfold reverseLine claimFlip
  split
  · simp
  · simp
  · rename_i h1 h2
    cases l with
    | nil => simp
    | cons c cs =>
      have hc1 : ¬ c = '-' := fun h => by subst h; exact h1 cs rfl
      have hc2 : ¬ c = '+' := fun h => by subst h; exact h2 cs rfl
      simp [hc1, hc2]

theorem joinLines_cons (a : Line) (ls : List Line) (h : ls ≠ []) :
    joinLines (a :: ls) = a ++ '\n' :: joinLines ls := by
  cases ls with
  | nil => exact absurd rfl h
  | cons x xs => rfl

/-! ### C1 -/

/-- C1 counterexample: the diff text cexC1Str has the non-header body line
junk before its first hunk header, yet parseDiff succeeds and returns the
hunk list, silently dropping the stray line instead of failing. -/
theorem parseDiff_leading_body_counterexample :
    ((splitNl cexC1Str).drop 4).dropLast.head? = some (str "junk") ∧
    isHeaderLine (str "junk") = false ∧
    parseDiff cexC1Str = some [cexC1Diff] := by decide

/-- C1 amended: a body line occurring before the first hunk header is
silently ignored by the scan loop of parseDiff; the result is the hunk
list of the remaining lines, not an error. -/
theorem parseDiffLoop_drops_leading (junk rest : List Line)
    (h : ∀ l ∈ junk, isHeaderLine l = false) :
    parseDiffLoop (junk ++ rest) none = parseDiffLoop rest none := by
  induction junk with
  | nil => rfl
  | cons l js ih =>
    simp only [List.cons_append, parseDiffLoop]
    rw [if_neg (by simp [h l (List.mem_cons_self l js)])]
    exact ih (fun x hx => h x (List.mem_cons_of_mem l hx))

/-- C1 amended witness at a concrete junk prefix. -/
theorem parseDiffLoop_drops_leading_witness :
    (∀ l ∈ [str "junk"], isHeaderLine l = false) ∧
    parseDiffLoop ([str "junk"] ++ [str "@@ -1,0 +2,2 @@", str "+x"]) none =
      parseDiffLoop [str "@@ -1,0 +2,2 @@", str "+x"] none :=
  ⟨by decide, parseDiffLoop_drops_leading [str "junk"] [str "@@ -1,0 +2,2 @@", str "+x"] (by decide)⟩

/-! ### C2 -/

/-- C2: for every hunk produced by parseDiff, start and end are derived
from the header counts exactly as the claim states for each changeType. -/
theorem parseDiff_start_end (input : List Char) (ds : List Diff) (d : Diff)
    (h1 : parseDiff input = some ds) (h2 : d ∈ ds) :
    (d.changeType = ChangeType.delete →
      d.start = d.added.start ∧ d.endLine = d.added.start) ∧
    (d.changeType = ChangeType.add →
      d.start = d.added.start ∧ d.endLine = d.added.start + d.added.count - 1) ∧
    (d.changeType = ChangeType.change →
      d.start = d.added.start ∧
      d.endLine = d.added.start + Nat.min d.added.count d.removed.count - 1) := by
  have hcore := parseDiffLoop_coreOk _ none ds (by intro c hc; cases hc) h1 d h2
  rcases hcore with ⟨_, ht, hs, he⟩ | ⟨_, _, ht, hs, he⟩ | ⟨_, _, ht, hs, he⟩ <;>
    refine ⟨?_, ?_, ?_⟩ <;> intro hct <;> rw [ht] at hct <;> first
      | exact ⟨hs, he⟩
      | cases hct

/-- C2 witness: the single change hunk of a concrete diff. -/
theorem parseDiff_start_end_witness :
    parseDiff exChangeStr = some [exChangeDiff] ∧
    ((exChangeDiff.changeType = ChangeType.delete →
      exChangeDiff.start = exChangeDiff.added.start ∧
      exChangeDiff.endLine = exChangeDiff.added.start) ∧
    (exChangeDiff.changeType = ChangeType.add →
      exChangeDiff.start = exChangeDiff.added.start ∧
      exChangeDiff.endLine = exChangeDiff.added.start + exChangeDiff.added.count - 1) ∧
    (exChangeDiff.changeType = ChangeType.change →
      exChangeDiff.start = exChangeDiff.added.start ∧
      exChangeDiff.endLine =
        exChangeDiff.added.start + Nat.min exChangeDiff.added.count exChangeDiff.removed.count - 1)) :=
  ⟨by decide, parseDiff_start_end exChangeStr [exChangeDiff] exChangeDiff (by decide) (by decide)⟩

/-! ### C4 -/

/-- C4: the changeType of every parsed hunk matches exactly the count
condition of its class: delete iff the added count is zero, add iff only
the removed count is zero, change iff both counts are positive. -/
theorem parseDiff_changeType_counts (input : List Char) (ds : List Diff) (d : Diff)
    (h1 : parseDiff input = some ds) (h2 : d ∈ ds) :
    (d.changeType = ChangeType.delete ↔ d.added.count = 0) ∧
    (d.changeType = ChangeType.add ↔ d.added.count ≠ 0 ∧ d.removed.count = 0) ∧
    (d.changeType = ChangeType.change ↔ d.added.count ≠ 0 ∧ d.removed.count ≠ 0) := by
  have hcore := parseDiffLoop_coreOk _ none ds (by intro c hc; cases hc) h1 d h2
  rcases hcore with ⟨hc, ht, _, _⟩ | ⟨hc1, hc2, ht, _, _⟩ | ⟨hc1, hc2, ht, _, _⟩ <;> rw [ht]
  · refine ⟨⟨fun _ => hc, fun _ => rfl⟩, ⟨fun h => ?_, fun h => absurd hc h.1⟩,
      ⟨fun h => ?_, fun h => absurd hc h.1⟩⟩ <;> cases h
  · refine ⟨⟨fun h => ?_, fun h => absurd h hc1⟩, ⟨fun _ => ⟨hc1, hc2⟩, fun _ => rfl⟩,
      ⟨fun h => ?_, fun h => absurd hc2 h.2⟩⟩ <;> cases h
  · refine ⟨⟨fun h => ?_, fun h => absurd h hc1⟩, ⟨fun h => ?_, fun h => absurd h.2 hc2⟩,
      ⟨fun _ => ⟨hc1, hc2⟩, fun _ => rfl⟩⟩ <;> cases h

/-- C4 witness: the single change hunk of a concrete diff. -/
theorem parseDiff_changeType_counts_witness :
    parseDiff exChangeStr = some [exChangeDiff] ∧
    ((exChangeDiff.changeType = ChangeType.delete ↔ exChangeDiff.added.count = 0) ∧
    (exChangeDiff.changeType = ChangeType.add ↔
      exChangeDiff.added.count ≠ 0 ∧ exChangeDiff.removed.count = 0) ∧
    (exChangeDiff.changeType = ChangeType.change ↔
      exChangeDiff.added.count ≠ 0 ∧ exChangeDiff.removed.count ≠ 0)) :=
  ⟨by decide,
    parseDiff_changeType_counts exChangeStr [exChangeDiff] exChangeDiff (by decide) (by decide)⟩

/-! ### C7 -/

/-- C7: the four-state conflict parser on the literal seven-line buffer
yields exactly one Conflict with start 2, sep 4, end 6, current HEAD,
incoming branch, and no common field. -/
theorem parseConflicts_example :
    parseConflicts conflictBuffer = [⟨2, none, 4, 6, str "HEAD", str "branch"⟩] := by decide

/-! ### C8 -/

/-- C8 counterexample: for the hunk cexC8Diff the fifth patch line built
by chunkStage is a recomputed header, not the original header line of the
hunk. -/
theorem chunkStage_head_counterexample :
    (chunkStageLines (str "a.txt") cexC8Diff).get? 4 = some (str "@@ -3,1 +3,1 @@") ∧
    (chunkStageLines (str "a.txt") cexC8Diff).get? 4 ≠ some cexC8Diff.head := by decide

/-- C8 amended: the stage patch is exactly the five-line envelope with a
header recomputed from the removed and added ranges, then the hunk body
verbatim, terminated by a final blank line. -/
theorem chunkStagePatch_envelope (relpath : Line) (d : Diff) :
    chunkStagePatch relpath d =
      str "diff --git a/" ++ relpath ++ str " b/" ++ relpath ++ '\n' ::
      (str "index 000000..000000 100644" ++ '\n' ::
      (str "--- a/" ++ relpath ++ '\n' ::
      (str "+++ b/" ++ relpath ++ '\n' ::
      (chunkStageHead d ++ '\n' ::
      joinLines (d.lines ++ [[]]))))) := by
  unfold chunkStagePatch chunkStageLines
  simp only [List.cons_append, List.nil_append]
  rw [joinLines_cons _ _ (by simp), joinLines_cons _ _ (by simp),
    joinLines_cons _ _ (by simp), joinLines_cons _ _ (by simp),
    joinLines_cons _ _ (by simp)]

/-! ### C9 -/

/-- C9 counterexample: the unstage patch of cexC9Chunk carries the header
with plus group 4,1 computed as add.lnum + 1 - add.count, not the header
with the remove group 3,1 that swapping the groups would give. -/
theorem createUnstagePatch_swap_counterexample :
    createUnstagePatch (str "a") cexC9Chunk =
      str "diff --git a/a b/a\nindex 000000..000000 100644\n--- a/a\n+++ b/a\n@@ -5,2 +4,1 @@\n+x\n-y\n-z\n" ∧
    createUnstagePatch (str "a") cexC9Chunk ≠
      str "diff --git a/a b/a\nindex 000000..000000 100644\n--- a/a\n+++ b/a\n@@ -5,2 +3,1 @@\n+x\n-y\n-z\n" := by
  decide

/-- C9 amended: for every chunk whose counts are not both zero, the
unstage patch is the five-line envelope whose minus group is the add
group, whose plus group is add.lnum + 1 - add.count with the remove
count, followed by the chunk lines with only the leading plus or minus
character flipped and the order preserved, and a final blank line. -/
theorem createUnstagePatch_spec (relpath : Line) (chunk : StageChunk)
    (h : ¬(chunk.remove.count = 0 ∧ chunk.add.count = 0)) :
    createUnstagePatch relpath chunk =
      joinLines
        ([str "diff --git a/" ++ relpath ++ str " b/" ++ relpath,
          str "index 000000..000000 100644",
          str "--- a/" ++ relpath,
          str "+++ b/" ++ relpath,
          str "@@ -" ++ natToDigits chunk.add.lnum ++ str "," ++ natToDigits chunk.add.count ++
            str " +" ++ intToChars ((chunk.add.lnum : Int) + 1 - (chunk.add.count : Int)) ++
            str "," ++ natToDigits chunk.remove.count ++ str " @@"]
         ++ chunk.lines.map claimFlip ++ [[]]) := by
  unfold createUnstagePatch
  rw [if_neg h]
  have hmap : chunk.lines.map reverseLine = chunk.lines.map claimFlip :=
    List.map_congr_left (fun l _ => reverseLine_eq_claimFlip l)
  rw [hmap]

/-- C9 amended witness at a concrete chunk. -/
theorem createUnstagePatch_spec_witness :
    ¬(cexC9Chunk.remove.count = 0 ∧ cexC9Chunk.add.count = 0) ∧
    createUnstagePatch (str "a") cexC9Chunk =
      joinLines
        ([str "diff --git a/" ++ str "a" ++ str " b/" ++ str "a",
          str "index 000000..000000 100644",
          str "--- a/" ++ str "a",
          str "+++ b/" ++ str "a",
          str "@@ -" ++ natToDigits cexC9Chunk.add.lnum ++ str "," ++
            natToDigits cexC9Chunk.add.count ++ str " +" ++
            intToChars ((cexC9Chunk.add.lnum : Int) + 1 - (cexC9Chunk.add.count : Int)) ++
            str "," ++ natToDigits cexC9Chunk.remove.count ++ str " @@"]
         ++ cexC9Chunk.lines.map claimFlip ++ [[]]) :=
  ⟨by decide, createUnstagePatch_spec (str "a") cexC9Chunk (by decide)⟩

/-! ### C5 -/

theorem signsFor_eq_claim (d : Diff) :
    hunkLineSigns d ++ hunkTailSigns d = claimSignsOf d := by
  unfold hunkLineSigns hunkTailSigns claimSignsOf
  congr 1
  refine List.map_congr_left (fun i _ => ?_)
  by_cases htd : d.changeType = ChangeType.delete ∧ i = 0
  · have hcd : ¬(d.changeType = ChangeType.change ∧
        d.removed.count > d.added.count ∧ i = d.endLine) := by
      rintro ⟨hc, _⟩
      rw [htd.1] at hc
      cases hc
    simp [htd, hcd]
  · by_cases hcd : d.changeType = ChangeType.change ∧
        d.removed.count > d.added.count ∧ i = d.endLine
    · simp [htd, hcd]
    · simp [htd, hcd]

theorem diffDocument_foldl (ds : List Diff) :
    ∀ acc : DiffSummary,
      ds.foldl diffStep acc =
        ⟨acc.added + (ds.map claimAddedOf).sum,
         acc.changed + (ds.map claimChangedOf).sum,
         acc.removed + (ds.map claimRemovedOf).sum,
         acc.signs ++ ds.flatMap claimSignsOf⟩ := by
  induction ds with
  | nil =>
    intro acc
    cases acc
    simp
  | cons d ds ih =>
    intro acc
    rw [List.foldl_cons, ih (diffStep acc d)]
    have hsigns : (diffStep acc d).signs = acc.signs ++ claimSignsOf d := by
      unfold diffStep
      rw [← signsFor_eq_claim d, ← List.append_assoc]
      cases d.changeType <;> rfl
    have hadd : (diffStep acc d).added = acc.added + claimAddedOf d := by
      unfold diffStep claimAddedOf
      cases hct : d.changeType <;> simp [hct, Nat.min_def]
      split_ifs <;> omega
    have hchg : (diffStep acc d).changed = acc.changed + claimChangedOf d := by
      unfold diffStep claimChangedOf
      cases hct : d.changeType <;> simp [hct]
    have hrem : (diffStep acc d).removed = acc.removed + claimRemovedOf d := by
      unfold diffStep claimRemovedOf
      cases hct : d.changeType <;> simp [hct, Nat.min_def]
      split_ifs <;> omega
    rw [hsigns, hadd, hchg, hrem]
    simp [List.append_assoc, Nat.add_assoc]

/-- C5: the sign projection of diffDocument equals, for every hunk list,
the per-hunk counter contributions and per-line signs the claim
describes; in particular the empty list yields the empty summary. -/
theorem diffDocument_spec (diffs : List Diff) :
    diffDocument diffs =
      ⟨(diffs.map claimAddedOf).sum,
       (diffs.map claimChangedOf).sum,
       (diffs.map claimRemovedOf).sum,
       diffs.flatMap claimSignsOf⟩ := by
  unfold diffDocument
  rw [diffDocument_foldl]
  simp

/-! ### C6 -/

theorem getChunkPred_eq_claim (line : Nat) (d : Diff) :
    getChunkPred line d = claimMatches line d := by
  unfold getChunkPred claimMatches claimEffEnd
  by_cases h1 : line = 1 ∧ d.start = 0 ∧ d.endLine = 0
  · simp only [if_pos h1, decide_eq_true_eq]
    simp [h1]
  · rw [if_neg h1]
    by_cases h2 : d.changeType = ChangeType.change ∧ d.added.count > d.removed.count
    · simp only [if_pos h2, decide_eq_decide]
      omega
    · simp only [if_neg h2, decide_eq_decide]
      omega

/-- C6: getChunk returns the first hunk matched by the claim condition:
the line one special case for a hunk with start and end zero, or the
range test up to the effective end extended by the size delta of a
growing change hunk; none when no hunk matches. -/
theorem getChunk_spec (diffs : List Diff) (line : Nat) :
    getChunk diffs line = diffs.find? (claimMatches line) := by
  unfold getChunk
  cases diffs with
  | nil => simp
  | cons a l =>
    rw [if_neg (by simp)]
    rw [show getChunkPred line = claimMatches line from funext (getChunkPred_eq_claim line)]

/-! ### C10 -/

/-- Every line stored in every staged chunk of the result map passes the
leading plus or minus test. -/
def goodStagedRes (res : List (Line × List StageChunk)) : Prop :=
  ∀ e ∈ res, ∀ ch ∈ e.2, ∀ l ∈ ch.lines, jsTestPlusMinus l = true

theorem goodStagedRes_nil : goodStagedRes [] := by
  intro e he
  cases he

theorem pushChunkAt_good (res : List (Line × List StageChunk)) (p : Line)
    (ch : StageChunk) (hres : goodStagedRes res)
    (hch : ∀ l ∈ ch.lines, jsTestPlusMinus l = true) :
    goodStagedRes (pushChunkAt res p ch) := by
  induction res with
  | nil =>
    intro e he ch' hch' l hl
    simp only [pushChunkAt, List.mem_singleton] at he
    subst he
    simp only [List.mem_singleton] at hch'
    subst hch'
    exact hch l hl
  | cons qcs rest ih =>
    obtain ⟨q, cs⟩ := qcs
    intro e he ch' hch' l hl
    simp only [pushChunkAt] at he
    by_cases hq : q == p
    · rw [if_pos hq] at he
      rcases List.mem_cons.mp he with rfl | hmem
      · rcases List.mem_append.mp hch' with hin | hin
        · exact hres (q, cs) (List.mem_cons_self _ _) ch' hin l hl
        · simp only [List.mem_singleton] at hin
          subst hin
          exact hch l hl
      · exact hres e (List.mem_cons_of_mem _ hmem) ch' hch' l hl
    · rw [if_neg hq] at he
      rcases List.mem_cons.mp he with rfl | hmem
      · exact hres (q, cs) (List.mem_cons_self _ _) ch' hch' l hl
      · exact ih (fun e' he' => hres e' (List.mem_cons_of_mem _ he')) e hmem ch' hch' l hl

theorem appendLast_good (x : Line) (cs : List StageChunk)
    (hcs : ∀ ch ∈ cs, ∀ l ∈ ch.lines, jsTestPlusMinus l = true)
    (hx : jsTestPlusMinus x = true) :
    ∀ ch ∈ appendLast x cs, ∀ l ∈ ch.lines, jsTestPlusMinus l = true := by
  induction cs with
  | nil =>
    intro ch hch
    cases hch
  | cons c rest ih =>
    intro ch hch l hl
    cases rest with
    | nil =>
      simp only [appendLast, List.mem_singleton] at hch
      subst hch
      simp only [List.mem_append, List.mem_singleton] at hl
      rcases hl with hl | rfl
      · exact hcs c (List.mem_cons_self _ _) l hl
      · exact hx
    | cons c2 rest2 =>
      simp only [appendLast] at hch
      rcases List.mem_cons.mp hch with rfl | hmem
      · exact hcs ch (List.mem_cons_self _ _) l hl
      · exact ih (fun ch' hch' => hcs ch' (List.mem_cons_of_mem _ hch')) ch hmem l hl

theorem appendLineAt_good (res : List (Line × List StageChunk)) (p x : Line)
    (hres : goodStagedRes res) (hx : jsTestPlusMinus x = true) :
    goodStagedRes (appendLineAt res p x) := by
  induction res with
  | nil =>
    intro e he
    cases he
  | cons qcs rest ih =>
    obtain ⟨q, cs⟩ := qcs
    intro e he ch hch l hl
    simp only [appendLineAt] at he
    by_cases hq : q == p
    · rw [if_pos hq] at he
      rcases List.mem_cons.mp he with rfl | hmem
      · exact appendLast_good x cs
          (fun ch' hch' => hres (q, cs) (List.mem_cons_self _ _) ch' hch') hx ch hch l hl
      · exact hres e (List.mem_cons_of_mem _ hmem) ch hch l hl
    · rw [if_neg hq] at he
      rcases List.mem_cons.mp he with rfl | hmem
      · exact hres (q, cs) (List.mem_cons_self _ _) ch hch l hl
      · exact ih (fun e' he' => hres e' (List.mem_cons_of_mem _ he')) e hmem ch hch l hl

theorem getStagedLoop_good :
    ∀ (fuel : Nat) (lines : List Line) (fsPath : Option Line) (currOpen : Bool)
      (res : List (Line × List StageChunk)), goodStagedRes res →
      goodStagedRes (getStagedLoop fuel lines fsPath currOpen res) := by
  intro fuel
  induction fuel with
  | zero =>
    intro lines fsPath currOpen res hres
    cases lines <;> exact hres
  | succ f ih =>
    intro lines fsPath currOpen res hres
    cases lines with
    | nil => exact hres
    | cons l ls =>
      simp only [getStagedLoop]
      by_cases hb1 : fsTruthy fsPath && isHeaderLine l
      · rw [if_pos hb1]
        cases hm : matchStagedHeader l with
        | some ra =>
          obtain ⟨rm, ad⟩ := ra
          refine ih ls fsPath true _ (pushChunkAt_good res _ ⟨rm, ad, []⟩ hres ?_)
          intro l' hl'
          cases hl'
        | none => exact ih ls fsPath false res hres
      · rw [if_neg hb1]
        by_cases hb2 : currOpen && jsTestPlusMinus l
        · rw [if_pos hb2]
          exact ih ls fsPath currOpen _
            (appendLineAt_good res _ l hres (Bool.and_elim_right hb2))
        · rw [if_neg hb2]
          by_cases hb3 : (str "diff --git").isPrefixOf l
          · rw [if_pos hb3]
            cases hg : matchDiffGit l with
            | some p => exact ih (ls.drop 3) (some p) false res hres
            | none => exact ih ls fsPath currOpen res hres
          · rw [if_neg hb3]
            exact ih ls fsPath currOpen res hres

/-- C10: every line stored in a StageChunk parsed from the staged diff
output begins with a plus or a minus character. -/
theorem getStagedChunks_lines_signed (lines : List Line) (p : Line)
    (cs : List StageChunk) (ch : StageChunk) (l : Line)
    (h1 : (p, cs) ∈ getStagedChunks lines) (h2 : ch ∈ cs) (h3 : l ∈ ch.lines) :
    l.head? = some '+' ∨ l.head? = some '-' := by
  have hg := getStagedLoop_good lines.length lines none false [] goodStagedRes_nil
  exact (jsTestPlusMinus_head l).mp (hg (p, cs) h1 ch h2 l h3)

/-- C10 witness: a concrete staged diff with one chunk. -/
theorem getStagedChunks_lines_signed_witness :
    (str "a.txt", [exStagedChunk]) ∈ getStagedChunks exStagedLines ∧
    exStagedChunk ∈ [exStagedChunk] ∧
    str "-old" ∈ exStagedChunk.lines ∧
    ((str "-old").head? = some '+' ∨ (str "-old").head? = some '-') :=
  ⟨by decide, by decide, by decide,
    getStagedChunks_lines_signed exStagedLines (str "a.txt") [exStagedChunk] exStagedChunk
      (str "-old") (by decide) (by decide) (by decide)⟩

/-! ### C3: digit lemmas -/

theorem digitChar_isDigit (d : Nat) : (digitChar d).isDigit = true := by
  rcases d with _ | _ | _ | _ | _ | _ | _ | _ | _ | d <;> rfl

theorem digitChar_val (d : Nat) (h : d < 10) : (digitChar d).toNat - 48 = d := by
  rcases d with _ | _ | _ | _ | _ | _ | _ | _ | _ | d
  · rfl
  · rfl
  · rfl
  · rfl
  · rfl
  · rfl
  · rfl
  · rfl
  · rfl
  · have hd : d = 0 := by omega
    subst hd
    rfl

theorem natToDigitsAux_digits :
    ∀ fuel n, n < fuel → ∀ c ∈ natToDigitsAux fuel n, c.isDigit = true := by
  intro fuel
  induction fuel with
  | zero => intro n hn; omega
  | succ f ih =>
    intro n hn c hc
    simp only [natToDigitsAux] at hc
    by_cases h10 : n < 10
    · rw [if_pos h10] at hc
      simp at hc
      rw [hc]
      exact digitChar_isDigit n
    · rw [if_neg h10] at hc
      rcases List.mem_append.mp hc with hin | hin
      · have hdiv : n / 10 < n := Nat.div_lt_self (by omega) (by omega)
        exact ih (n / 10) (by omega) c hin
      · simp at hin
        rw [hin]
        exact digitChar_isDigit (n % 10)

theorem natToDigits_digits (n : Nat) : ∀ c ∈ natToDigits n, c.isDigit = true :=
  natToDigitsAux_digits (n + 1) n (by omega)

theorem natToDigits_ne_nil (n : Nat) : natToDigits n ≠ [] := by
  unfold natToDigits natToDigitsAux
  by_cases h10 : n < 10
  · simp [h10]
  · simp [h10]

theorem digitsVal_concat (l : List Char) (c : Char) :
    digitsVal (l ++ [c]) = digitsVal l * 10 + (c.toNat - 48) := by
  simp [digitsVal, List.foldl_append]

theorem natToDigitsAux_val :
    ∀ fuel n, n < fuel → digitsVal (natToDigitsAux fuel n) = n := by
  intro fuel
  induction fuel with
  | zero => intro n hn; omega
  | succ f ih =>
    intro n hn
    simp only [natToDigitsAux]
    by_cases h10 : n < 10
    · rw [if_pos h10]
      show 0 * 10 + ((digitChar n).toNat - 48) = n
      rw [digitChar_val n h10]
      omega
    · rw [if_neg h10]
      rw [digitsVal_concat]
      have hdiv : n / 10 < n := Nat.div_lt_self (by omega) (by omega)
      rw [ih (n / 10) (by omega), digitChar_val (n % 10) (by omega)]
      omega

theorem natToDigits_val (n : Nat) : digitsVal (natToDigits n) = n :=
  natToDigitsAux_val (n + 1) n (by omega)

theorem jsParseInt_natToDigits (n : Nat) : jsParseInt (natToDigits n) = some n := by
  unfold jsParseInt
  rw [List.takeWhile_eq_self_iff.mpr (natToDigits_digits n)]
  rw [if_neg (by simp [List.isEmpty_iff, natToDigits_ne_nil n])]
  rw [natToDigits_val]

theorem natToDigits_concat (n : Nat) :
    ∃ i d, natToDigits n = i ++ [d] ∧ d.isDigit = true := by
  unfold natToDigits natToDigitsAux
  by_cases h10 : n < 10
  · exact ⟨[], digitChar n, by simp [h10], digitChar_isDigit n⟩
  · exact ⟨natToDigitsAux n (n / 10), digitChar (n % 10), by simp [h10],
      digitChar_isDigit (n % 10)⟩

/-! ### C3: character class lemmas -/

theorem isDigit_not_ws {c : Char} (h : c.isDigit = true) : isWs c = false := by
  by_contra hw
  have hw' : isWs c = true := by
    cases hisWs : isWs c
    · exact absurd hisWs hw
    · rfl
  simp only [isWs, Bool.or_eq_true, beq_iff_eq] at hw'
  rcases hw' with ((rfl | rfl) | rfl) | rfl <;> simp [Char.isDigit] at h

theorem isDigit_ne_at {c : Char} (h : c.isDigit = true) : c ≠ '@' := by
  rintro rfl
  simp [Char.isDigit] at h

theorem isDigit_not_comma {c : Char} (h : c.isDigit = true) : (c == ',') = false := by
  cases heq : c == ','
  · rfl
  · rw [beq_iff_eq] at heq
    subst heq
    simp [Char.isDigit] at h

/-! ### C3: splitting lemmas -/

theorem splitAtPred_no_match (p : Char → Bool) (l : List Char)
    (h : ∀ c ∈ l, p c = false) : splitAtPred p l = [l] := by
  induction l with
  | nil => rfl
  | cons c cs ih =>
    simp only [splitAtPred]
    rw [if_neg (by simp [h c (List.mem_cons_self c cs)])]
    rw [ih (fun x hx => h x (List.mem_cons_of_mem c hx))]

theorem splitAtPred_append_sep (p : Char → Bool) (xs : List Char) (sep : Char)
    (ys : List Char) (hxs : ∀ c ∈ xs, p c = false) (hsep : p sep = true) :
    splitAtPred p (xs ++ sep :: ys) = xs :: splitAtPred p ys := by
  induction xs with
  | nil =>
    simp only [List.nil_append, splitAtPred]
    rw [if_pos hsep]
  | cons c cs ih =>
    simp only [List.cons_append, splitAtPred]
    rw [if_neg (by simp [hxs c (List.mem_cons_self c cs)])]
    simp only [List.append_eq]
    rw [ih (fun x hx => hxs x (List.mem_cons_of_mem c hx))]

/-! ### C3: trim lemmas -/

theorem trimL_cons_ws (c : Char) (hc : isWs c = true) (l : List Char) :
    trimL (c :: l) = trimL l := by
  simp [trimL, List.dropWhile_cons, hc]

theorem trimL_cons_not_ws (c : Char) (hc : isWs c = false) (l : List Char) :
    trimL (c :: l) = c :: l := by
  simp [trimL, List.dropWhile_cons, hc]

theorem trimR_concat_ws (l : List Char) (c : Char) (hc : isWs c = true) :
    trimR (l ++ [c]) = trimR l := by
  simp [trimR, List.reverse_append, List.dropWhile_cons, hc]

theorem trimR_concat_not_ws (l : List Char) (c : Char) (hc : isWs c = false) :
    trimR (l ++ [c]) = l ++ [c] := by
  simp [trimR, List.reverse_append, List.dropWhile_cons, hc]

/-! ### C3: token extraction lemmas -/

theorem afterToken_cons_token (rest : List Char) :
    afterToken ('@' :: '@' :: rest) = some rest := by
  simp [afterToken]

theorem upToToken_append (m t : List Char) (h : ∀ c ∈ m, c ≠ '@') :
    upToToken (m ++ '@' :: '@' :: t) = m := by
  induction m with
  | nil => simp [upToToken]
  | cons c cs ih =>
    simp only [List.cons_append, upToToken]
    rw [if_neg (by simp [h c (List.mem_cons_self c cs)])]
    simp only [List.append_eq]
    rw [ih (fun x hx => h x (List.mem_cons_of_mem c hx))]

/-! ### C3: group lemmas -/

theorem group_chars (x : Nat) (y : Option Nat) :
    ∀ ch ∈ natToDigits x ++ commaCount y, ch.isDigit = true ∨ ch = ',' := by
  intro ch hch
  rcases List.mem_append.mp hch with hin | hin
  · exact Or.inl (natToDigits_digits x ch hin)
  · cases y with
    | none => cases hin
    | some yy =>
      simp only [commaCount] at hin
      rcases List.mem_cons.mp hin with rfl | hin
      · exact Or.inr rfl
      · exact Or.inl (natToDigits_digits yy ch hin)

theorem group_no_ws (x : Nat) (y : Option Nat) :
    ∀ ch ∈ natToDigits x ++ commaCount y, isWs ch = false := by
  intro ch hch
  rcases group_chars x y ch hch with hd | rfl
  · exact isDigit_not_ws hd
  · rfl

theorem group_no_at (x : Nat) (y : Option Nat) :
    ∀ ch ∈ natToDigits x ++ commaCount y, ch ≠ '@' := by
  intro ch hch
  rcases group_chars x y ch hch with hd | rfl
  · exact isDigit_ne_at hd
  · intro h
    cases h

theorem group_concat_digit (x : Nat) (y : Option Nat) :
    ∃ Z ld, natToDigits x ++ commaCount y = Z ++ [ld] ∧ ld.isDigit = true := by
  cases y with
  | none =>
    obtain ⟨i, d, hid, hd⟩ := natToDigits_concat x
    exact ⟨i, d, by simp [commaCount, hid], hd⟩
  | some yy =>
    obtain ⟨i, d, hid, hd⟩ := natToDigits_concat yy
    refine ⟨natToDigits x ++ ',' :: i, d, ?_, hd⟩
    simp [commaCount, hid]

theorem splitComma_group (x : Nat) (y : Option Nat) :
    splitComma (natToDigits x ++ commaCount y) =
      natToDigits x :: (y.map natToDigits).toList := by
  cases y with
  | none =>
    simp only [commaCount, List.append_nil, Option.map_none', Option.toList_none]
    exact splitAtPred_no_match _ _ (fun c hc => isDigit_not_comma (natToDigits_digits x c hc))
  | some yy =>
    simp only [commaCount, Option.map_some', Option.toList_some]
    unfold splitComma
    rw [splitAtPred_append_sep _ _ _ _
      (fun c hc => isDigit_not_comma (natToDigits_digits x c hc)) (by rfl)]
    rw [splitAtPred_no_match _ _ (fun c hc => isDigit_not_comma (natToDigits_digits yy c hc))]

theorem countOf_some_of_ne_nil (g : List Char) (h : g ≠ []) :
    countOf (some g) = jsParseInt g := by
  cases g with
  | nil => exact absurd rfl h
  | cons c cs => rfl

theorem mkRngPair_groups (x : Nat) (y : Option Nat) (z : Nat) (w : Option Nat) :
    mkRngPair (splitComma (natToDigits x ++ commaCount y))
      (splitComma (natToDigits z ++ commaCount w)) =
      some (⟨x, y.getD 1⟩, ⟨z, w.getD 1⟩) := by
  rw [splitComma_group x y, splitComma_group z w]
  cases y <;> cases w <;>
    simp only [Option.map_none', Option.map_some', Option.toList_none, Option.toList_some,
      Option.getD_none, Option.getD_some] <;>
    simp only [mkRngPair, List.get?_cons_succ, List.get?_cons_zero, List.get?_nil] <;>
    rw [jsParseInt_natToDigits x, jsParseInt_natToDigits z] <;>
    (try (rename_i g1 g2
          rw [countOf_some_of_ne_nil _ (natToDigits_ne_nil g1), jsParseInt_natToDigits g1,
            countOf_some_of_ne_nil _ (natToDigits_ne_nil g2), jsParseInt_natToDigits g2])) <;>
    (try (rename_i g
          rw [countOf_some_of_ne_nil _ (natToDigits_ne_nil g), jsParseInt_natToDigits g])) <;>
    exact rfl

/-! ### C3: the header round-trip -/

/-- C3: for every valid hunk header line, built from the four integers
with optional counts and arbitrary trailing context text, the header
parser of parseDiff recovers the integers exactly, defaulting an omitted
count to one. -/
theorem parseHeader_roundtrip (a : Nat) (b : Option Nat) (c : Nat) (d : Option Nat)
    (t : List Char) :
    parseHeaderOfLine (renderHeader a b c d t) =
      some (⟨a, b.getD 1⟩, ⟨c, d.getD 1⟩) := by
  have hA := group_concat_digit a b
  have hC := group_concat_digit c d
  obtain ⟨Z, ld, hZ, hld⟩ := hC
  -- the rendered line in cons-and-append normal form
  have hrender : renderHeader a b c d t =
      '@' :: '@' :: ((' ' :: (('-' :: (natToDigits a ++ commaCount b ++
        (' ' :: '+' :: (natToDigits c ++ commaCount d)))) ++ [' '])) ++ '@' :: '@' :: t) := by
    simp [renderHeader, str, List.append_assoc]
  rw [hrender]
  simp only [parseHeaderOfLine, afterToken_cons_token]
  have hmid : ∀ ch ∈ (' ' :: (('-' :: (natToDigits a ++ commaCount b ++
      (' ' :: '+' :: (natToDigits c ++ commaCount d)))) ++ [' '])), ch ≠ '@' := by
    intro ch hch
    rcases List.mem_cons.mp hch with rfl | hch
    · intro h; cases h
    rcases List.mem_append.mp hch with hch | hch
    · rcases List.mem_cons.mp hch with rfl | hch
      · intro h; cases h
      rcases List.mem_append.mp hch with hch | hch
      · rcases List.mem_append.mp hch with hch | hch
        · exact isDigit_ne_at (natToDigits_digits a ch hch)
        · exact group_no_at 0 b ch (by
            rcases b with _ | bb
            · cases hch
            · exact List.mem_append.mpr (Or.inr hch))
      · rcases List.mem_cons.mp hch with rfl | hch
        · intro h; cases h
        rcases List.mem_cons.mp hch with rfl | hch
        · intro h; cases h
        · exact group_no_at c d ch hch
    · simp at hch
      subst hch
      intro h; cases h
  rw [upToToken_append _ t hmid]
  -- trim the leading and trailing space
  have htrim : trimBoth (' ' :: (('-' :: (natToDigits a ++ commaCount b ++
      (' ' :: '+' :: (natToDigits c ++ commaCount d)))) ++ [' '])) =
      '-' :: (natToDigits a ++ commaCount b ++
        (' ' :: '+' :: (natToDigits c ++ commaCount d))) := by
    show trimR (trimL _) = _
    rw [trimL_cons_ws ' ' rfl]
    rw [show ('-' :: (natToDigits a ++ commaCount b ++
        (' ' :: '+' :: (natToDigits c ++ commaCount d)))) ++ [' '] =
        '-' :: ((natToDigits a ++ commaCount b ++
          (' ' :: '+' :: (natToDigits c ++ commaCount d))) ++ [' ']) from by simp]
    rw [trimL_cons_not_ws '-' rfl]
    rw [show '-' :: ((natToDigits a ++ commaCount b ++
        (' ' :: '+' :: (natToDigits c ++ commaCount d))) ++ [' ']) =
        ('-' :: (natToDigits a ++ commaCount b ++
          (' ' :: '+' :: (natToDigits c ++ commaCount d)))) ++ [' '] from by simp]
    rw [trimR_concat_ws _ ' ' rfl]
    rw [show '-' :: (natToDigits a ++ commaCount b ++
        (' ' :: '+' :: (natToDigits c ++ commaCount d))) =
        ('-' :: (natToDigits a ++ commaCount b ++ (' ' :: '+' :: Z))) ++ [ld] from by
      simp [hZ, List.append_assoc]]
    rw [trimR_concat_not_ws _ ld (isDigit_not_ws hld)]
  rw [htrim]
  -- split into the two sign groups
  have hf1 : ∀ ch ∈ '-' :: (natToDigits a ++ commaCount b), isWs ch = false := by
    intro ch hch
    rcases List.mem_cons.mp hch with rfl | hch
    · rfl
    · exact group_no_ws a b ch hch
  have hf2 : ∀ ch ∈ '+' :: (natToDigits c ++ commaCount d), isWs ch = false := by
    intro ch hch
    rcases List.mem_cons.mp hch with rfl | hch
    · rfl
    · exact group_no_ws c d ch hch
  have hsplit : wsFields ('-' :: (natToDigits a ++ commaCount b ++
      (' ' :: '+' :: (natToDigits c ++ commaCount d)))) =
      [('-' :: (natToDigits a ++ commaCount b)),
       ('+' :: (natToDigits c ++ commaCount d))] := by
    have hshape : '-' :: (natToDigits a ++ commaCount b ++
        (' ' :: '+' :: (natToDigits c ++ commaCount d))) =
        ('-' :: (natToDigits a ++ commaCount b)) ++ ' ' ::
          ('+' :: (natToDigits c ++ commaCount d)) := by
      simp [List.append_assoc]
    rw [hshape]
    unfold wsFields
    rw [splitAtPred_append_sep _ _ _ _ hf1 (by rfl)]
    rw [splitAtPred_no_match _ _ hf2]
    simp
  rw [hsplit]
  simp only [List.map_cons, List.map_nil]
  show mkRngPair (splitComma (natToDigits a ++ commaCount b))
    (splitComma (natToDigits c ++ commaCount d)) = some (⟨a, b.getD 1⟩, ⟨c, d.getD 1⟩)
  exact mkRngPair_groups a b c d

end CocGit
